import Mathlib

/-
Verification of the depth-time conversion / synthetic-seismogram pipeline and
the interval summarization engine of the rockphysics library.

The Python source (rockphysics/core/seismic.py, rockphysics/core/well.py) is
shallowly embedded below.  Numeric values are modelled by the rationals;
undefined values (NaN) are modelled by Option; pandas Series are modelled as
lists of values (with a separate list for the index where one is needed);
fallible functions return Except.
-/

namespace RockPhysics

/-! ## Reflectivity engine (seismic.py, calculate_reflectivity_series) -/

/-- The epsilon guard used by calculate_reflectivity_series (source: 1e-9). -/
def rcEpsilon : ℚ := 1 / 10 ^ 9

/-- The per-pair reflection coefficients.  Source: z1 = z[:-1], z2 = z[1:],
rc = NaN where |z2 + z1| is not above epsilon, (z2 - z1) / (z2 + z1) elsewhere. -/
def rcPairs (z : List ℚ) : List (Option ℚ) :=
  (z.zip z.tail).map (fun p =>
    if rcEpsilon < |p.2 + p.1| then some ((p.2 - p.1) / (p.2 + p.1)) else none)

/-- Embedding of calculate_reflectivity_series: rejects series shorter than 2,
then aligns the pair coefficients according to the mode. -/
def calculate_reflectivity_series (z : List ℚ) (mode : String) :
    Except String (List (Option ℚ)) :=
  if z.length < 2 then
    .error "Acoustic impedance log must have at least two samples to calculate reflectivity."
  else if mode = "interface_above" then .ok (rcPairs z ++ [none])
  else if mode = "interface_below" then .ok (none :: rcPairs z)
  else if mode = "interface_between" then .ok (rcPairs z)
  else .error ("Invalid mode " ++ mode)

/-! ## Wavelet synthesizer (seismic.py, generate_ricker_wavelet)

Only the sample-count / effective-length logic is embedded: the amplitude
formula (which needs the real exponential) is not touched by any verified
property. -/

/-- The sample-count computation of generate_ricker_wavelet.  Source:
num_samples = int(length_ms / dt_ms), then if even, num_samples += 1 and
length_ms = num_samples * dt_ms.  Python int() truncates toward zero, which
for the positive inputs admitted by the guards is the floor. -/
def rickerCountLength (length_ms dt_ms : ℚ) : ℕ × ℚ :=
  let num := ⌊length_ms / dt_ms⌋.toNat
  if num % 2 = 0 then (num + 1, ((num + 1 : ℕ) : ℚ) * dt_ms) else (num, length_ms)

/-- Embedding of the argument guards and count logic of generate_ricker_wavelet. -/
def generate_ricker_wavelet_count (peak_frequency length_ms dt_ms : ℚ) :
    Except String (ℕ × ℚ) :=
  if peak_frequency ≤ 0 then .error "Peak frequency must be positive."
  else if length_ms ≤ 0 then .error "Length of wavelet must be positive."
  else if dt_ms ≤ 0 then .error "Sample interval (dt) must be positive."
  else .ok (rickerCountLength length_ms dt_ms)

/-- Rounding to the nearest integer (half rounds up); formalizes the
round(length_ms / dt_ms) of the specification.  At the input used in the
counterexample below the ratio is 39/10, which is tie-free, so every
rounding convention gives the same value. -/
def roundNearest (q : ℚ) : ℤ := ⌊q + 1 / 2⌋

/-! ## Convolution stage (seismic.py, convolve_traces)

scipy.signal.convolve is embedded by its defining formula: the full discrete
linear convolution has length m + n - 1 with entry k the sum of a_i * b_(k-i);
mode "same" is the centered slice of the full output with the length of the
first argument (the slice starts at (n - 1) / 2).  The source replaces NaN by
0 before convolving (fillna(0)). -/

/-- Full discrete linear convolution of two sample lists. -/
def fullConv (a b : List ℚ) : List ℚ :=
  (List.range (a.length + b.length - 1)).map (fun k =>
    ((List.range a.length).map (fun i =>
      if i ≤ k ∧ k - i < b.length then a.getD i 0 * b.getD (k - i) 0 else 0)).sum)

/-- Mode "same": the centered slice of the full convolution, sized to the
first argument. -/
def sameConv (a b : List ℚ) : List ℚ :=
  (((fullConv a b).drop ((b.length - 1) / 2)).take a.length)

/-- Embedding of convolve_traces on an indexed reflectivity series.  NaN
entries are replaced by zero; for mode "same" the output keeps the input
index; for mode "full" the index is rebuilt from the input start time, the
wavelet center offset and the input sample interval when the length changed.
The "valid" branch of the source is not exercised by any verified property
and is not embedded. -/
def convolve_traces (idx : List ℚ) (vals : List (Option ℚ)) (w : List ℚ)
    (mode : String) : Except String (List ℚ × List ℚ) :=
  let rc := vals.map (fun v => v.getD 0)
  if mode = "same" then .ok (idx, sameConv rc w)
  else if mode = "full" then
    let syn := fullConv rc w
    if syn.length = idx.length then .ok (idx, syn)
    else
      let dt := if 1 < idx.length then idx.getD 1 0 - idx.getD 0 0 else 1
      let offset : ℕ := (w.length - 1) / 2
      let start := (idx.foldr min (idx.headD 0)) - (offset : ℚ) * dt
      .ok ((List.range syn.length).map (fun i => start + (i : ℚ) * dt), syn)
  else .error ("mode not embedded: " ++ mode)

/-! ## Interval summarizer (well.py, Well.summarize_intervals and helpers)

A depth-indexed table (a slice of Well.logs) is a strictly increasing depth
index together with named, index-aligned columns.  Sorting is modelled by the
stable insertion sort (Python sorted is stable; np.median only needs the
ascending order). -/

structure IntervalDF where
  depths : List ℚ
  cols : List (String × List ℚ)

/-- pandas DataFrame.get: the named column, or none when absent. -/
def colGet (df : IntervalDF) (name : String) : Option (List ℚ) :=
  (df.cols.find? (fun c => c.1 == name)).map Prod.snd

/-- np.diff on the depth index: consecutive differences. -/
def diffs (l : List ℚ) : List ℚ :=
  (l.zip l.tail).map (fun p => p.2 - p.1)

/-- np.median: the middle value of the ascending sort, or the mean of the two
middle values for an even count.  The source only calls it on non-empty step
lists (the empty case is guarded); the 0 default is never reached there. -/
def median (l : List ℚ) : ℚ :=
  let s := List.insertionSort (· ≤ ·) l
  if l.length % 2 = 1 then s.getD (l.length / 2) 0
  else (s.getD (l.length / 2 - 1) 0 + s.getD (l.length / 2) 0) / 2

/-- Index maximum (pandas index.max over a non-empty index). -/
def maxOf (l : List ℚ) : ℚ := l.foldr max (l.headD 0)

/-- Index minimum (pandas index.min over a non-empty index). -/
def minOf (l : List ℚ) : ℚ := l.foldr min (l.headD 0)

/-- Embedding of Well._calculate_interval_thickness: gross thickness and
median step; empty and single-sample slices yield (0, 0) without touching
the median. -/
def calculate_interval_thickness (df : IntervalDF) : ℚ × ℚ :=
  if df.depths.isEmpty then (0, 0)
  else
    let depth_steps := diffs df.depths
    if depth_steps.isEmpty then (0, 0)
    else
      let step := median depth_steps
      ((maxOf df.depths - minOf df.depths) + step, step)

/-- Embedding of Well._calculate_interval_net_sand.  The result triple is
(gross_thickness, net_sand, ntg_sand); NaN is none. -/
def calculate_interval_net_sand (df : IntervalDF) (vsh_curve : String)
    (vsh_cutoff : ℚ) : ℚ × Option ℚ × Option ℚ :=
  let gs := calculate_interval_thickness df
  if gs.1 = 0 then (0, some 0, none)
  else
    match colGet df vsh_curve with
    | none => (gs.1, none, none)
    | some vsh =>
      let net_sand_samples := (vsh.filter (fun v => decide (v < vsh_cutoff))).length
      let net := (net_sand_samples : ℚ) * gs.2
      (gs.1, some net, if 0 < gs.1 then some (net / gs.1) else none)

/-- Embedding of Well._calculate_interval_net_pay.  DataFrame.get yields the
column when present and the scalar default otherwise (1 for vsh and sw, 0 for
phi).  When at least one of the three operands is a column, pandas broadcasts
the scalar comparisons over the slice length and the boolean mask sums to the
pay count.  When all three curves are absent the mask is a single plain
Python bool (the cutoffs are plain floats), and pay_mask.sum() raises
AttributeError; that failure is the error case here. -/
def calculate_interval_net_pay (df : IntervalDF) (vsh_curve : String)
    (vsh_cutoff : ℚ) (phi_curve : String) (phi_cutoff : ℚ) (sw_curve : String)
    (sw_cutoff : ℚ) : Except String ℚ :=
  let step := (calculate_interval_thickness df).2
  let ovsh := colGet df vsh_curve
  let ophi := colGet df phi_curve
  let osw := colGet df sw_curve
  if ovsh.isNone && ophi.isNone && osw.isNone then
    .error "AttributeError: bool object has no attribute sum"
  else
    let n := df.depths.length
    let vsh := ovsh.getD (List.replicate n 1)
    let phi := ophi.getD (List.replicate n 0)
    let sw := osw.getD (List.replicate n 1)
    let mask := (vsh.zip (phi.zip sw)).map (fun t =>
      decide (t.1 < vsh_cutoff) && decide (phi_cutoff < t.2.1) && decide (t.2.2 < sw_cutoff))
    .ok (((mask.filter (fun b => b)).length : ℚ) * step)

/-- Embedding of Well.get_intervals: tops sorted by depth (stably), paired
consecutively; fewer than 2 tops give no intervals. -/
def get_intervals (tops : List (String × ℚ)) :
    List (String × ℚ × String × ℚ) :=
  if tops.length < 2 then []
  else
    let sorted_tops := List.insertionSort (fun a b => a.2 ≤ b.2) tops
    (sorted_tops.zip sorted_tops.tail).map (fun p => (p.1.1, p.1.2, p.2.1, p.2.2))

/-- The depth slice logs[(index >= lo) & (index < hi)], applied to the index
and to every column in alignment. -/
def sliceLogs (df : IntervalDF) (lo hi : ℚ) : IntervalDF where
  depths := df.depths.filter (fun d => decide (lo ≤ d) && decide (d < hi))
  cols := df.cols.map (fun c =>
    (c.1, ((df.depths.zip c.2).filter
      (fun p => decide (lo ≤ p.1) && decide (p.1 < hi))).map Prod.snd))

/-- One row of the summary DataFrame; net_pay is none when the optional
net-pay arguments were not all supplied.  When the net-pay computation fails
(all three of its curves absent from the slice) the source lets the exception
escape summarize_intervals; the row records that failure in its net_pay
field here, a shape no verified property reads. -/
structure SummaryRow where
  top : String
  base : String
  topMD : ℚ
  baseMD : ℚ
  gross_thickness : ℚ
  net_sand : Option ℚ
  ntg_sand : Option ℚ
  net_pay : Option (Except String ℚ)

/-- The summary DataFrame: its column labels (after set_index on Top) and its
rows, indexed by top name. -/
structure SummaryTable where
  columns : List String
  rows : List SummaryRow

/-- Embedding of Well.summarize_intervals.  The optional average-property
curves are not embedded (no verified property touches them); the optional
net-pay arguments are a single Option holding (phi_curve, phi_cutoff,
sw_curve, sw_cutoff). -/
def summarize_intervals (logs : IntervalDF) (tops : List (String × ℚ))
    (vsh_curve : String) (vsh_cutoff : ℚ)
    (netpay_args : Option (String × ℚ × String × ℚ)) : SummaryTable :=
  let intervals := get_intervals tops
  if intervals.isEmpty then ⟨["Base", "TopMD", "BaseMD"], []⟩
  else
    let rows := intervals.filterMap (fun iv =>
      match iv with
      | (top_name, top_depth, base_name, base_depth) =>
        let interval_df := sliceLogs logs top_depth base_depth
        if interval_df.depths.isEmpty then none
        else
          let ns := calculate_interval_net_sand interval_df vsh_curve vsh_cutoff
          let np := netpay_args.map (fun a =>
            calculate_interval_net_pay interval_df vsh_curve vsh_cutoff
              a.1 a.2.1 a.2.2.1 a.2.2.2)
          some { top := top_name, base := base_name, topMD := top_depth,
                 baseMD := base_depth, gross_thickness := ns.1,
                 net_sand := ns.2.1, ntg_sand := ns.2.2, net_pay := np })
    if rows.isEmpty then ⟨["Base", "TopMD", "BaseMD"], []⟩
    else ⟨["Base", "TopMD", "BaseMD", "gross_thickness", "net_sand", "ntg_sand"]
           ++ (if netpay_args.isSome then ["net_pay"] else []), rows⟩

/-! ## Depth-time interpolators (seismic.py, create_depth_time_interpolators)

scipy interp1d with kind linear and fill_value extrapolate is embedded as a
piecewise-linear map over the knot list that continues the boundary segment
slope beyond the first and last knot. -/

/-- The linear segment through knots p and q, evaluated at x. -/
def interpSeg (p q : ℚ × ℚ) (x : ℚ) : ℚ :=
  p.2 + (x - p.1) * (q.2 - p.2) / (q.1 - p.1)

/-- scipy interp1d(kind=linear, fill_value=extrapolate) over knots sorted by
the first coordinate: linear between consecutive knots, boundary-segment
extrapolation outside.  The empty and single-knot cases are never produced by
the source (it guards for at least 2 knots). -/
def scipyInterp : List (ℚ × ℚ) → ℚ → ℚ
  | [], _ => 0
  | [p], _ => p.2
  | [p, q], x => interpSeg p q x
  | p :: q :: r :: rest, x =>
    if x ≤ q.1 then interpSeg p q x else scipyInterp (q :: r :: rest) x

/-- pandas drop_duplicates(subset=key, keep=first): a row is kept exactly
when no earlier row has the same key. -/
def dropDupBy (key : ℚ × ℚ → ℚ) : List (ℚ × ℚ) → List (ℚ × ℚ)
  | [] => []
  | p :: rest => p :: (dropDupBy key rest).filter (fun r => !(key r == key p))

/-- Embedding of create_depth_time_interpolators.  The checkshot rows are
(depth, time) pairs already sorted by depth (load_checkshot_data sorts them).
Rows are de-duplicated by depth for the depth-to-time direction and by time
(then re-sorted by time) for the time-to-depth direction. -/
def create_depth_time_interpolators (checkshot : List (ℚ × ℚ)) :
    Except String ((ℚ → ℚ) × (ℚ → ℚ)) :=
  if checkshot.length < 2 then
    .error "Checkshot data must have at least two points for interpolation."
  else
    let unique_depth_data := dropDupBy Prod.fst checkshot
    let unique_time_data := dropDupBy Prod.snd checkshot
    if unique_depth_data.length < 2 then
      .error "Not enough unique depth points in checkshot data for depth-to-time interpolation."
    else if unique_time_data.length < 2 then
      .error "Not enough unique time points in checkshot data for time-to-depth interpolation."
    else
      let sorted_time_data := List.insertionSort (fun a b => a.2 ≤ b.2) unique_time_data
      .ok (fun d => scipyInterp unique_depth_data d,
           fun t => scipyInterp (sorted_time_data.map (fun p => (p.2, p.1))) t)

/-! ## Time-domain resampler (seismic.py, resample_log_to_time_domain)

The source maps the depth index through depth_to_time, sorts the resulting
(time, value) pairs, collapses duplicate times by averaging, forms the union
of the collapsed time axis with the target index, reindexes over the union,
interpolates with pandas method=index and selects the target positions.
Pandas interpolation with the default forward limit direction evaluates
np.interp over the valid knots at every gap at or after the first knot and
leaves positions before the first knot missing; np.interp is linear inside
the knot range and constant (first or last knot value) outside.  Since every
target time belongs to the union, selecting the target positions of the
interpolated union is evaluating that rule at each target time. -/

/-- Mean of a list of values (sum over count). -/
def listMean (l : List ℚ) : ℚ := l.sum / (l.length : ℚ)

/-- Collapse of equal adjacent keys in an ascending key list. -/
def dedupSorted : List ℚ → List ℚ
  | [] => []
  | [a] => [a]
  | a :: b :: t => if a = b then dedupSorted (b :: t) else a :: dedupSorted (b :: t)

/-- groupby(index).mean() over key-sorted pairs: one output pair per distinct
key, holding the mean of all values carrying that key. -/
def groupMean (pairs : List (ℚ × ℚ)) : List (ℚ × ℚ) :=
  (dedupSorted (pairs.map Prod.fst)).map (fun k =>
    (k, listMean ((pairs.filter (fun p => decide (p.1 = k))).map Prod.snd)))

/-- Steps 1 to 3 of the resampler: the depth-to-time converted, time-sorted,
duplicate-collapsed (time, value) curve. -/
def collapsedTimeCurve (depths vals : List ℚ) (f : ℚ → ℚ) : List (ℚ × ℚ) :=
  groupMean (List.insertionSort (fun a b => a.1 ≤ b.1) ((depths.map f).zip vals))

/-- np.interp over strictly ascending knots: constant before the first knot,
linear between knots, constant after the last knot. -/
def npInterp : List (ℚ × ℚ) → ℚ → ℚ
  | [], _ => 0
  | [p], _ => p.2
  | p :: q :: rest, x =>
    if x ≤ p.1 then p.2
    else if x ≤ q.1 then interpSeg p q x
    else npInterp (q :: rest) x

/-- The value the interpolated union holds at a union time u: the data value
when u is a collapsed-curve time (reindex keeps it), missing before the first
data time (pandas preserves leading gaps), the np.interp value otherwise. -/
def interpolatedAt (data : List (ℚ × ℚ)) (u : ℚ) : Option ℚ :=
  match data.find? (fun d => decide (d.1 = u)) with
  | some d => some d.2
  | none =>
    match data with
    | [] => none
    | p :: _ => if u < p.1 then none else some (npInterp data u)

/-- Embedding of resample_log_to_time_domain: an empty input curve maps to an
all-missing output on the target index; otherwise each target time receives
the interpolated-union value there. -/
def resample_log_to_time_domain (depths vals : List ℚ) (f : ℚ → ℚ)
    (target : List ℚ) : List (Option ℚ) :=
  if depths.isEmpty then target.map (fun _ => none)
  else target.map (fun t => interpolatedAt (collapsedTimeCurve depths vals f) t)

/-! ## Multi-curve converter (seismic.py, convert_well_logs_to_time_domain) -/

/-- Embedding of convert_well_logs_to_time_domain: requested mnemonics found
among the columns are resampled and keyed by the suffixed series name, the
missing ones are skipped (with a console warning in the source); the result
is the column collection together with the target index that indexes it. -/
def convert_well_logs_to_time_domain (depths : List ℚ)
    (cols : List (String × List ℚ)) (log_mnemonics : List String) (f : ℚ → ℚ)
    (target : List ℚ) : List (String × List (Option ℚ)) × List ℚ :=
  let collection := log_mnemonics.filterMap (fun m =>
    (cols.find? (fun c => c.1 == m)).map (fun c =>
      (m ++ "_time", resample_log_to_time_domain depths c.2 f target)))
  (collection, target)

instance : IsTotal (ℚ × ℚ) (fun a b => a.1 ≤ b.1) :=
  ⟨fun a b => le_total a.1 b.1⟩

instance : IsTrans (ℚ × ℚ) (fun a b => a.1 ≤ b.1) :=
  ⟨fun _ _ _ hab hbc => le_trans hab hbc⟩

instance : IsTotal (ℚ × ℚ) (fun a b => a.2 ≤ b.2) :=
  ⟨fun a b => le_total a.2 b.2⟩

instance : IsTrans (ℚ × ℚ) (fun a b => a.2 ≤ b.2) :=
  ⟨fun _ _ _ hab hbc => le_trans hab hbc⟩

instance : IsTrans (ℚ × ℚ) (fun a b => a.1 < b.1) :=
  ⟨fun _ _ _ hab hbc => lt_trans hab hbc⟩

instance : IsTrans (ℚ × ℚ) (fun a b => a.2 < b.2) :=
  ⟨fun _ _ _ hab hbc => lt_trans hab hbc⟩

theorem rcPairs_length (z : List ℚ) : (rcPairs z).length = z.length - 1 := by
  simp [rcPairs, List.length_zip, List.length_tail]

theorem rcPairs_getElem (z : List ℚ) (i : ℕ) (hi : i + 1 < z.length) :
    (rcPairs z)[i]? =
      some (if rcEpsilon < |z[i + 1] + z[i]| then
        some ((z[i + 1] - z[i]) / (z[i + 1] + z[i])) else none) := by
  have hlen : i < (rcPairs z).length := by
    rw [rcPairs_length]; omega
  have hzip : i < (z.zip z.tail).length := by
    simp [List.length_zip, List.length_tail]; omega
  rw [List.getElem?_eq_getElem hlen]
  simp only [rcPairs, List.getElem_map, List.getElem_zip, List.getElem_tail]

/-- C2: for every impedance series with at least 2 samples and every adjacent
pair (Z1, Z2) = (z[i], z[i+1]), the pair coefficient equals
(Z2 - Z1) / (Z2 + Z1) exactly when |Z2 + Z1| exceeds epsilon = 1e-9, and is
the undefined sentinel (never a division result) whenever |Z2 + Z1| is within
epsilon of zero. -/
theorem reflectivity_epsilon_guard (z : List ℚ) (i : ℕ) (hi : i + 1 < z.length) :
    (rcPairs z)[i]? =
      some (if rcEpsilon < |z[i + 1] + z[i]| then
        some ((z[i + 1] - z[i]) / (z[i + 1] + z[i])) else none) :=
  rcPairs_getElem z i hi

/-- Witness for C2 at the concrete series [1, 3]: the denominator 4 is above
epsilon, so position 0 holds (3 - 1) / (3 + 1) = 1 / 2. -/
theorem reflectivity_epsilon_guard_witness :
    (rcPairs [1, 3])[0]? = some (some (1 / 2)) := by
  have h := reflectivity_epsilon_guard [1, 3] 0 (by decide)
  rw [h]
  norm_num [rcEpsilon]

/-- C3: for every impedance series of length at least 2, the three alignment
modes produce: interface_above, same length with the pair-(i, i+1) coefficient
at position i and an undefined last sample; interface_below, same length with
the coefficient at position i+1 and an undefined first sample;
interface_between, one sample shorter with the coefficient at position i. -/
theorem reflectivity_mode_alignment (z : List ℚ) (h2 : 2 ≤ z.length) :
    (∃ out, calculate_reflectivity_series z "interface_above" = .ok out ∧
        out.length = z.length ∧ out.getLast? = some none ∧
        (∀ i : ℕ, i + 1 < z.length → out[i]? = (rcPairs z)[i]?)) ∧
    (∃ out, calculate_reflectivity_series z "interface_below" = .ok out ∧
        out.length = z.length ∧ out.head? = some none ∧
        (∀ i : ℕ, i + 1 < z.length → out[i + 1]? = (rcPairs z)[i]?)) ∧
    (∃ out, calculate_reflectivity_series z "interface_between" = .ok out ∧
        out.length = z.length - 1 ∧
        (∀ i : ℕ, i + 1 < z.length → out[i]? = (rcPairs z)[i]?)) := by
  have hnot : ¬ z.length < 2 := by omega
  refine ⟨⟨rcPairs z ++ [none], ?_, ?_, ?_, ?_⟩,
          ⟨none :: rcPairs z, ?_, ?_, ?_, ?_⟩,
          ⟨rcPairs z, ?_, ?_, ?_⟩⟩
  · simp [calculate_reflectivity_series, hnot]
  · simp [rcPairs_length]; omega
  · simp
  · intro i hilt
    have hlt : i < (rcPairs z).length := by rw [rcPairs_length]; omega
    rw [List.getElem?_append, if_pos hlt]
  · simp [calculate_reflectivity_series, hnot]
  · simp [rcPairs_length]; omega
  · simp
  · intro i hilt
    simp
  · simp [calculate_reflectivity_series, hnot]
  · exact rcPairs_length z
  · intro i hilt
    rfl

/-- Witness for C3 at the concrete series [1, 2, 4]. -/
theorem reflectivity_mode_alignment_witness :
    (∃ out, calculate_reflectivity_series [1, 2, 4] "interface_above" = .ok out ∧
        out.length = ([1, 2, 4] : List ℚ).length ∧ out.getLast? = some none ∧
        (∀ i : ℕ, i + 1 < ([1, 2, 4] : List ℚ).length →
          out[i]? = (rcPairs [1, 2, 4])[i]?)) ∧
    (∃ out, calculate_reflectivity_series [1, 2, 4] "interface_below" = .ok out ∧
        out.length = ([1, 2, 4] : List ℚ).length ∧ out.head? = some none ∧
        (∀ i : ℕ, i + 1 < ([1, 2, 4] : List ℚ).length →
          out[i + 1]? = (rcPairs [1, 2, 4])[i]?)) ∧
    (∃ out, calculate_reflectivity_series [1, 2, 4] "interface_between" = .ok out ∧
        out.length = ([1, 2, 4] : List ℚ).length - 1 ∧
        (∀ i : ℕ, i + 1 < ([1, 2, 4] : List ℚ).length →
          out[i]? = (rcPairs [1, 2, 4])[i]?)) :=
  reflectivity_mode_alignment [1, 2, 4] (by decide)

/-- Counterexample to C4 as stated: at length_ms = 39/5 and dt_ms = 2 the
ratio is 39/10; the code truncates it to 3 (odd, so no adjustment), while
the claimed round-then-adjust recipe yields round(39/10) = 4, even, hence 5. -/
theorem ricker_count_not_round :
    (rickerCountLength (39 / 5) 2).1 = 3 ∧
    (if roundNearest ((39 / 5) / 2) % 2 = 0 then roundNearest ((39 / 5) / 2) + 1
      else roundNearest ((39 / 5) / 2)) = 5 ∧
    (3 : ℤ) ≠ 5 := by
  refine ⟨?_, ?_, by decide⟩
  · have hfl : ⌊(39 : ℚ) / 5 / 2⌋ = 3 := by
      rw [Int.floor_eq_iff] ; norm_num
    simp [rickerCountLength, hfl]
  · have hfl : roundNearest ((39 : ℚ) / 5 / 2) = 4 := by
      rw [roundNearest, Int.floor_eq_iff] ; norm_num
    rw [hfl]
    decide

/-- C4 amended: for all strictly positive parameters, the sample count is the
truncation (floor) of length_ms / dt_ms, incremented by one if that count is
even, so the count is always odd; when the count is adjusted, the effective
length becomes count * dt_ms, and otherwise the requested length is kept. -/
theorem ricker_count_odd (f L dt : ℚ) (hf : 0 < f) (hL : 0 < L) (hdt : 0 < dt) :
    ∃ n eff, generate_ricker_wavelet_count f L dt = .ok (n, eff) ∧
      n % 2 = 1 ∧
      (⌊L / dt⌋.toNat % 2 = 0 →
        n = ⌊L / dt⌋.toNat + 1 ∧ eff = (n : ℚ) * dt) ∧
      (⌊L / dt⌋.toNat % 2 = 1 →
        n = ⌊L / dt⌋.toNat ∧ eff = L) := by
  have hf' : ¬ f ≤ 0 := not_le.mpr hf
  have hL' : ¬ L ≤ 0 := not_le.mpr hL
  have hdt' : ¬ dt ≤ 0 := not_le.mpr hdt
  refine ⟨(rickerCountLength L dt).1, (rickerCountLength L dt).2, ?_, ?_, ?_, ?_⟩
  · simp [generate_ricker_wavelet_count, hf', hL', hdt']
  · by_cases hpar : ⌊L / dt⌋.toNat % 2 = 0 <;>
      simp [rickerCountLength, hpar] <;> omega
  · intro hpar
    simp [rickerCountLength, hpar]
  · intro hpar
    have hpar' : ¬ ⌊L / dt⌋.toNat % 2 = 0 := by omega
    simp [rickerCountLength, hpar']

/-- Witness for C4 amended at peak frequency 25 Hz, length 100 ms, dt 2 ms:
the truncated count 50 is even, so 51 samples and an effective length of
102 ms result. -/
theorem ricker_count_odd_witness :
    ∃ n eff, generate_ricker_wavelet_count 25 100 2 = .ok (n, eff) ∧
      n % 2 = 1 ∧
      (⌊(100 : ℚ) / 2⌋.toNat % 2 = 0 →
        n = ⌊(100 : ℚ) / 2⌋.toNat + 1 ∧ eff = (n : ℚ) * 2) ∧
      (⌊(100 : ℚ) / 2⌋.toNat % 2 = 1 →
        n = ⌊(100 : ℚ) / 2⌋.toNat ∧ eff = 100) :=
  ricker_count_odd 25 100 2 (by norm_num) (by norm_num) (by norm_num)

theorem fullConv_length (a b : List ℚ) :
    (fullConv a b).length = a.length + b.length - 1 := by
  simp [fullConv]

theorem sameConv_length (a b : List ℚ) (ha : 1 ≤ a.length) (hb : 1 ≤ b.length) :
    (sameConv a b).length = a.length := by
  simp only [sameConv, List.length_take, List.length_drop, fullConv_length]
  omega

/-- C5: for every reflectivity series of length m >= 1 and wavelet of length
n >= 1, mode "same" yields exactly m output samples carrying exactly the
input index, and mode "full" yields exactly m + n - 1 output samples. -/
theorem convolve_length_law (idx : List ℚ) (vals : List (Option ℚ)) (w : List ℚ)
    (_hiv : idx.length = vals.length) (hm : 1 ≤ vals.length) (hn : 1 ≤ w.length) :
    (∃ out, convolve_traces idx vals w "same" = .ok out ∧
        out.1 = idx ∧ out.2.length = vals.length) ∧
    (∃ out, convolve_traces idx vals w "full" = .ok out ∧
        out.2.length = vals.length + w.length - 1) := by
  constructor
  · refine ⟨(idx, sameConv (vals.map (fun v => v.getD 0)) w), ?_, rfl, ?_⟩
    · simp [convolve_traces]
    · rw [sameConv_length] <;> simp [hm, hn]
  · have hlen : (fullConv (vals.map (fun v => v.getD 0)) w).length
        = vals.length + w.length - 1 := by
      simp [fullConv_length]
    by_cases hsame : (fullConv (vals.map (fun v => v.getD 0)) w).length = idx.length
    · refine ⟨(idx, fullConv (vals.map (fun v => v.getD 0)) w), ?_, by simpa using hlen⟩
      simp [convolve_traces, hsame]
    · refine ⟨((List.range (fullConv (vals.map (fun v => v.getD 0)) w).length).map
          (fun i => ((idx.foldr min (idx.headD 0))
              - (((w.length - 1) / 2 : ℕ) : ℚ)
                * (if 1 < idx.length then idx.getD 1 0 - idx.getD 0 0 else 1))
            + (i : ℚ) * (if 1 < idx.length then idx.getD 1 0 - idx.getD 0 0 else 1)),
          fullConv (vals.map (fun v => v.getD 0)) w), ?_, ?_⟩
      · simp only [convolve_traces]
        rw [if_neg (by simp), if_pos trivial, if_neg hsame]
      · simpa using hlen

/-- Witness for C5: reflectivity [some 1, none] on index [0, 2] with the
one-sample wavelet [1]. -/
theorem convolve_length_law_witness :
    (∃ out, convolve_traces [0, 2] [some 1, none] [1] "same" = .ok out ∧
        out.1 = [0, 2] ∧ out.2.length = ([some 1, none] : List (Option ℚ)).length) ∧
    (∃ out, convolve_traces [0, 2] [some 1, none] [1] "full" = .ok out ∧
        out.2.length = ([some 1, none] : List (Option ℚ)).length
          + ([1] : List ℚ).length - 1) :=
  convolve_length_law [0, 2] [some 1, none] [1] (by decide) (by decide) (by decide)

theorem le_foldr_max {a : ℚ} (seed : ℚ) {l : List ℚ} (h : a ∈ l) :
    a ≤ l.foldr max seed := by
  induction l with
  | nil => cases h
  | cons x t ih =>
    rcases List.mem_cons.mp h with rfl | hmem
    · exact le_max_left _ _
    · exact le_trans (ih hmem) (le_max_right _ _)

theorem foldr_min_le {a : ℚ} (seed : ℚ) {l : List ℚ} (h : a ∈ l) :
    l.foldr min seed ≤ a := by
  induction l with
  | nil => cases h
  | cons x t ih =>
    rcases List.mem_cons.mp h with rfl | hmem
    · exact min_le_left _ _
    · exact le_trans (min_le_right _ _) (ih hmem)

theorem minOf_le_maxOf {l : List ℚ} (h : l ≠ []) : minOf l ≤ maxOf l := by
  have hmem : l.headD 0 ∈ l := by
    cases l with
    | nil => exact absurd rfl h
    | cons x t => exact List.mem_cons_self _ _
  exact le_trans (foldr_min_le _ hmem) (le_foldr_max _ hmem)

theorem diffs_length (l : List ℚ) : (diffs l).length = l.length - 1 := by
  simp [diffs, List.length_zip, List.length_tail]

theorem diffs_pos {l : List ℚ} (h : l.Chain' (· < ·)) :
    ∀ x ∈ diffs l, 0 < x := by
  induction l with
  | nil => intro x hx; cases hx
  | cons a t ih =>
    cases t with
    | nil => intro x hx; cases hx
    | cons b t' =>
      intro x hx
      have hd : diffs (a :: b :: t') = (b - a) :: diffs (b :: t') := rfl
      rw [hd, List.mem_cons] at hx
      rcases List.chain'_cons.mp h with ⟨hab, htail⟩
      rcases hx with rfl | hx
      · linarith
      · exact ih htail x hx

theorem median_pos {l : List ℚ} (hne : l ≠ []) (hpos : ∀ x ∈ l, 0 < x) :
    0 < median l := by
  set s := List.insertionSort (· ≤ ·) l with hs
  have hperm : s.Perm l := List.perm_insertionSort _ l
  have hlen : s.length = l.length := hperm.length_eq
  have hspos : ∀ x ∈ s, 0 < x := fun x hx => hpos x (hperm.mem_iff.mp hx)
  have hl1 : 1 ≤ l.length := by
    cases l with
    | nil => exact absurd rfl hne
    | cons x t => simp
  by_cases hodd : l.length % 2 = 1
  · have hk : l.length / 2 < s.length := by omega
    have : s.getD (l.length / 2) 0 = s[l.length / 2] := List.getD_eq_getElem s 0 hk
    have hmem : s[l.length / 2] ∈ s := List.getElem_mem hk
    simp only [median, ← hs, if_pos hodd, this]
    exact hspos _ hmem
  · have hl2 : 2 ≤ l.length := by omega
    have hk1 : l.length / 2 - 1 < s.length := by omega
    have hk2 : l.length / 2 < s.length := by omega
    have e1 : s.getD (l.length / 2 - 1) 0 = s[l.length / 2 - 1] :=
      List.getD_eq_getElem s 0 hk1
    have e2 : s.getD (l.length / 2) 0 = s[l.length / 2] :=
      List.getD_eq_getElem s 0 hk2
    have p1 : 0 < s[l.length / 2 - 1] := hspos _ (List.getElem_mem hk1)
    have p2 : 0 < s[l.length / 2] := hspos _ (List.getElem_mem hk2)
    simp only [median, ← hs, if_neg hodd, e1, e2]
    linarith

/-- C6: over a strictly increasing interval slice carrying the vsh curve:
a single-sample slice yields zero gross thickness and zero step with no
median computed; when the gross thickness is zero, the net-to-gross is
undefined; with at least two samples, the step is the median of consecutive
depth differences, the gross thickness is (max depth - min depth) + step and
is positive, the net sand is (count of samples with vsh below the cutoff)
times the step, and the net-to-gross is net sand over gross thickness. -/
theorem interval_thickness_net_sand (df : IntervalDF) (vsh_curve : String)
    (vsh_cutoff : ℚ) (vsh : List ℚ)
    (hsort : df.depths.Chain' (· < ·)) (hvsh : colGet df vsh_curve = some vsh) :
    (df.depths.length ≤ 1 → calculate_interval_thickness df = (0, 0)) ∧
    ((calculate_interval_thickness df).1 = 0 →
      (calculate_interval_net_sand df vsh_curve vsh_cutoff).2.2 = none) ∧
    (2 ≤ df.depths.length →
      calculate_interval_thickness df =
        ((maxOf df.depths - minOf df.depths) + median (diffs df.depths),
          median (diffs df.depths)) ∧
      0 < (calculate_interval_thickness df).1 ∧
      calculate_interval_net_sand df vsh_curve vsh_cutoff =
        ((calculate_interval_thickness df).1,
          some (((vsh.filter (fun v => decide (v < vsh_cutoff))).length : ℚ)
            * (calculate_interval_thickness df).2),
          some ((((vsh.filter (fun v => decide (v < vsh_cutoff))).length : ℚ)
            * (calculate_interval_thickness df).2)
            / (calculate_interval_thickness df).1))) := by
  refine ⟨?_, ?_, ?_⟩
  · intro h1
    rcases hd : df.depths with _ | ⟨a, t⟩
    · simp [calculate_interval_thickness, hd]
    · have ht : t = [] := by
        have := congrArg List.length hd
        simp at this
        cases t with
        | nil => rfl
        | cons b t' => simp at this; omega
      subst ht
      simp [calculate_interval_thickness, hd, diffs]
  · intro h0
    simp [calculate_interval_net_sand, h0]
  · intro h2
    have hne : ¬ df.depths.isEmpty := by
      rw [List.isEmpty_iff]
      intro h
      rw [h] at h2
      simp at h2
    have hdne : df.depths ≠ [] := by
      intro h; rw [h] at h2; simp at h2
    have hsteps : ¬ (diffs df.depths).isEmpty := by
      rw [List.isEmpty_iff, ← List.length_eq_zero, diffs_length]
      omega
    have hsne : diffs df.depths ≠ [] := by
      intro h
      rw [List.isEmpty_iff] at hsteps
      exact hsteps h
    have hthick : calculate_interval_thickness df =
        ((maxOf df.depths - minOf df.depths) + median (diffs df.depths),
          median (diffs df.depths)) := by
      simp [calculate_interval_thickness, hne, hsteps]
    have hstep_pos : 0 < median (diffs df.depths) :=
      median_pos hsne (diffs_pos hsort)
    have hmm : minOf df.depths ≤ maxOf df.depths := minOf_le_maxOf hdne
    have hpos : 0 < (calculate_interval_thickness df).1 := by
      rw [hthick]
      simp only []
      linarith
    refine ⟨hthick, hpos, ?_⟩
    have hne0 : ¬ (calculate_interval_thickness df).1 = 0 := ne_of_gt hpos
    simp [calculate_interval_net_sand, hne0, hvsh, hpos]

/-- Witness for C6 on the slice with depths [100, 101, 103] and vsh values
[0, 1, 0] against cutoff 1/2: step = median [1, 2] = 3/2, gross = 3 + 3/2,
net = 2 * 3/2. -/
theorem interval_thickness_net_sand_witness :
    (([100, 101, 103] : List ℚ).length ≤ 1 →
      calculate_interval_thickness ⟨[100, 101, 103], [("VSH", [0, 1, 0])]⟩ = (0, 0)) ∧
    ((calculate_interval_thickness ⟨[100, 101, 103], [("VSH", [0, 1, 0])]⟩).1 = 0 →
      (calculate_interval_net_sand ⟨[100, 101, 103], [("VSH", [0, 1, 0])]⟩
        "VSH" (1 / 2)).2.2 = none) ∧
    (2 ≤ ([100, 101, 103] : List ℚ).length →
      calculate_interval_thickness ⟨[100, 101, 103], [("VSH", [0, 1, 0])]⟩ =
        ((maxOf [100, 101, 103] - minOf [100, 101, 103]
            + median (diffs [100, 101, 103])),
          median (diffs [100, 101, 103])) ∧
      0 < (calculate_interval_thickness ⟨[100, 101, 103], [("VSH", [0, 1, 0])]⟩).1 ∧
      calculate_interval_net_sand ⟨[100, 101, 103], [("VSH", [0, 1, 0])]⟩
          "VSH" (1 / 2) =
        ((calculate_interval_thickness ⟨[100, 101, 103], [("VSH", [0, 1, 0])]⟩).1,
          some (((([0, 1, 0] : List ℚ).filter
              (fun v => decide (v < 1 / 2))).length : ℚ)
            * (calculate_interval_thickness
                ⟨[100, 101, 103], [("VSH", [0, 1, 0])]⟩).2),
          some ((((([0, 1, 0] : List ℚ).filter
              (fun v => decide (v < 1 / 2))).length : ℚ)
            * (calculate_interval_thickness
                ⟨[100, 101, 103], [("VSH", [0, 1, 0])]⟩).2)
            / (calculate_interval_thickness
                ⟨[100, 101, 103], [("VSH", [0, 1, 0])]⟩).1))) :=
  interval_thickness_net_sand ⟨[100, 101, 103], [("VSH", [0, 1, 0])]⟩
    "VSH" (1 / 2) [0, 1, 0] (by norm_num [List.chain'_cons]) (by decide)

/-- Counterexample to C7 as stated: with zero tops the returned empty summary
table has columns Base, TopMD, BaseMD only; it does not carry the
gross_thickness, net_sand or ntg_sand columns the claim promises. -/
theorem summarize_empty_columns_counterexample :
    (summarize_intervals ⟨[100, 101], [("VSH", [0, 1])]⟩ [] "VSH" (1 / 2)
      none).rows.length = 0 ∧
    "gross_thickness" ∉ (summarize_intervals ⟨[100, 101], [("VSH", [0, 1])]⟩ []
      "VSH" (1 / 2) none).columns := by
  decide

/-- C7 amended: for every well with fewer than 2 tops, summarize_intervals
returns an empty summary table (no rows, indexed by top name) whose columns
are exactly the base name and the top and base depths; the gross thickness,
net sand and net-to-gross columns appear only on non-empty summaries. -/
theorem summarize_few_tops_empty (logs : IntervalDF) (tops : List (String × ℚ))
    (vsh_curve : String) (vsh_cutoff : ℚ)
    (netpay_args : Option (String × ℚ × String × ℚ)) (h : tops.length < 2) :
    summarize_intervals logs tops vsh_curve vsh_cutoff netpay_args =
      ⟨["Base", "TopMD", "BaseMD"], []⟩ := by
  have hint : get_intervals tops = [] := by
    simp [get_intervals, h]
  simp [summarize_intervals, hint]

/-- Witness for C7 amended: one single top. -/
theorem summarize_few_tops_empty_witness :
    summarize_intervals ⟨[100, 101], [("VSH", [0, 1])]⟩ [("A", 100)] "VSH"
      (1 / 2) none = ⟨["Base", "TopMD", "BaseMD"], []⟩ :=
  summarize_few_tops_empty ⟨[100, 101], [("VSH", [0, 1])]⟩ [("A", 100)] "VSH"
    (1 / 2) none (by decide)

theorem replicate_zip_left {α β : Type} (x : α) : ∀ (l : List β),
    (List.replicate l.length x).zip l = l.map (fun y => (x, y))
  | [] => rfl
  | a :: t => by
    simp only [List.length_cons, List.replicate_succ, List.zip_cons_cons,
      List.map_cons]
    rw [replicate_zip_left x t]

/-- C10: on a non-degenerate slice (at least two strictly increasing depths)
whose vsh curve is absent, the net-sand computation does not fail: the gross
thickness is still reported (and is positive) while net sand and net-to-gross
are the undefined sentinel.  The net-pay computation instead substitutes the
permissive scalar fallback of DataFrame.get for the missing vsh curve (the
scalar 1): with phi and sw present the comparison 1 < vsh_cutoff broadcasts
over the slice, so the pay count degenerates to the phi/sw conditions gated
by that constant comparison. -/
theorem missing_vsh_net_sand_undefined (df : IntervalDF) (vsh_curve : String)
    (vsh_cutoff : ℚ) (phi_curve : String) (phi_cutoff : ℚ) (sw_curve : String)
    (sw_cutoff : ℚ) (hsort : df.depths.Chain' (· < ·))
    (h2 : 2 ≤ df.depths.length) (hvsh : colGet df vsh_curve = none) :
    calculate_interval_net_sand df vsh_curve vsh_cutoff =
      ((calculate_interval_thickness df).1, none, none) ∧
    0 < (calculate_interval_thickness df).1 ∧
    (∀ phi sw : List ℚ, colGet df phi_curve = some phi →
      colGet df sw_curve = some sw → phi.length = df.depths.length →
      sw.length = df.depths.length →
      calculate_interval_net_pay df vsh_curve vsh_cutoff phi_curve phi_cutoff
          sw_curve sw_cutoff =
        .ok ((((phi.zip sw).filter (fun t => decide ((1 : ℚ) < vsh_cutoff) &&
            decide (phi_cutoff < t.1) && decide (t.2 < sw_cutoff))).length : ℚ)
          * (calculate_interval_thickness df).2)) := by
  have hdne : df.depths ≠ [] := by
    intro h; rw [h] at h2; simp at h2
  have hne : ¬ df.depths.isEmpty := by
    rw [List.isEmpty_iff]; exact hdne
  have hsne : diffs df.depths ≠ [] := by
    rw [← List.length_pos, diffs_length]; omega
  have hsteps : ¬ (diffs df.depths).isEmpty := by
    rw [List.isEmpty_iff]; exact hsne
  have hthick : calculate_interval_thickness df =
      ((maxOf df.depths - minOf df.depths) + median (diffs df.depths),
        median (diffs df.depths)) := by
    simp [calculate_interval_thickness, hne, hsteps]
  have hstep_pos : 0 < median (diffs df.depths) :=
    median_pos hsne (diffs_pos hsort)
  have hmm : minOf df.depths ≤ maxOf df.depths := minOf_le_maxOf hdne
  have hpos : 0 < (calculate_interval_thickness df).1 := by
    rw [hthick]; simp only []; linarith
  refine ⟨?_, hpos, ?_⟩
  · have hne0 : ¬ (calculate_interval_thickness df).1 = 0 := ne_of_gt hpos
    simp [calculate_interval_net_sand, hne0, hvsh]
  · intro phi sw hphi hsw hplen hslen
    have hpz : (phi.zip sw).length = df.depths.length := by
      rw [List.length_zip, hplen, hslen, min_self]
    simp only [calculate_interval_net_pay, hvsh, hphi, hsw, Option.getD_none,
      Option.getD_some, Option.isNone_none, Option.isNone_some,
      Bool.true_and, Bool.and_false, Bool.false_and, if_false,
      Bool.false_eq_true, if_neg]
    rw [← hpz, replicate_zip_left, List.map_map, List.filter_map,
      List.length_map]
    rfl

/-- Witness for C10: depths [0, 1] with phi values [1, 0] and sw values
[0, 1]; the vsh curve is absent, so its fallback comparison 1 < 2 passes and
the pay count reduces to the phi/sw conditions. -/
theorem missing_vsh_net_sand_undefined_witness :
    calculate_interval_net_sand ⟨[0, 1], [("PHI", [1, 0]), ("SW", [0, 1])]⟩
        "VSH" 2 =
      ((calculate_interval_thickness
        ⟨[0, 1], [("PHI", [1, 0]), ("SW", [0, 1])]⟩).1, none, none) ∧
    0 < (calculate_interval_thickness
      ⟨[0, 1], [("PHI", [1, 0]), ("SW", [0, 1])]⟩).1 ∧
    (∀ phi sw : List ℚ,
      colGet ⟨[0, 1], [("PHI", [1, 0]), ("SW", [0, 1])]⟩ "PHI" = some phi →
      colGet ⟨[0, 1], [("PHI", [1, 0]), ("SW", [0, 1])]⟩ "SW" = some sw →
      phi.length = ([0, 1] : List ℚ).length →
      sw.length = ([0, 1] : List ℚ).length →
      calculate_interval_net_pay ⟨[0, 1], [("PHI", [1, 0]), ("SW", [0, 1])]⟩
          "VSH" 2 "PHI" (1 / 2) "SW" (1 / 2) =
        .ok ((((phi.zip sw).filter (fun t => decide ((1 : ℚ) < 2) &&
            decide ((1 : ℚ) / 2 < t.1) && decide (t.2 < 1 / 2))).length : ℚ)
          * (calculate_interval_thickness
            ⟨[0, 1], [("PHI", [1, 0]), ("SW", [0, 1])]⟩).2)) :=
  missing_vsh_net_sand_undefined ⟨[0, 1], [("PHI", [1, 0]), ("SW", [0, 1])]⟩
    "VSH" 2 "PHI" (1 / 2) "SW" (1 / 2) (by norm_num [List.chain'_cons])
    (by decide) (by decide)

theorem resample_length (depths vals : List ℚ) (f : ℚ → ℚ) (target : List ℚ) :
    (resample_log_to_time_domain depths vals f target).length = target.length := by
  by_cases h : depths.isEmpty <;> simp [resample_log_to_time_domain, h]

/-- C9: convert_well_logs_to_time_domain never fails on missing names: the
produced columns are exactly the requested names found among the table
columns, in request order, suffixed with _time; the result is indexed by the
target time index and every produced column has its length; when no requested
name is present the column collection is empty (and the index is still the
target index). -/
theorem convert_skips_missing (depths : List ℚ) (cols : List (String × List ℚ))
    (mnems : List String) (f : ℚ → ℚ) (target : List ℚ) :
    ((convert_well_logs_to_time_domain depths cols mnems f target).1.map
        Prod.fst =
      (mnems.filter (fun m => (cols.find? (fun c => c.1 == m)).isSome)).map
        (fun m => m ++ "_time")) ∧
    (convert_well_logs_to_time_domain depths cols mnems f target).2 = target ∧
    (∀ p ∈ (convert_well_logs_to_time_domain depths cols mnems f target).1,
      p.2.length = target.length) ∧
    ((∀ m ∈ mnems, cols.find? (fun c => c.1 == m) = none) →
      (convert_well_logs_to_time_domain depths cols mnems f target).1 = []) := by
  refine ⟨?_, rfl, ?_, ?_⟩
  · simp only [convert_well_logs_to_time_domain]
    induction mnems with
    | nil => rfl
    | cons m ms ih =>
      cases h : cols.find? (fun c => c.1 == m) with
      | none => simpa [List.filterMap_cons, List.filter_cons, h] using ih
      | some c => simpa [List.filterMap_cons, List.filter_cons, h] using ih
  · intro p hp
    simp only [convert_well_logs_to_time_domain, List.mem_filterMap] at hp
    obtain ⟨m, _, hm⟩ := hp
    rcases Option.map_eq_some'.mp hm with ⟨c, _, rfl⟩
    exact resample_length depths c.2 f target
  · intro hnone
    simp only [convert_well_logs_to_time_domain, List.filterMap_eq_nil_iff]
    intro m hm
    simp [hnone m hm]

theorem dedupSorted_mem (x : ℚ) : ∀ (l : List ℚ), x ∈ dedupSorted l ↔ x ∈ l
  | [] => Iff.rfl
  | [_] => Iff.rfl
  | a :: b :: t => by
    rw [dedupSorted]
    by_cases hab : a = b
    · rw [if_pos hab, dedupSorted_mem x (b :: t), hab]
      simp only [List.mem_cons]
      tauto
    · rw [if_neg hab]
      simp only [List.mem_cons, dedupSorted_mem x (b :: t)]

theorem dedupSorted_head : ∀ (b : ℚ) (t : List ℚ),
    ∃ r, dedupSorted (b :: t) = b :: r
  | _, [] => ⟨[], rfl⟩
  | b, c :: t' => by
    by_cases hbc : b = c
    · obtain ⟨r, hr⟩ := dedupSorted_head c t'
      exact ⟨r, by rw [dedupSorted, if_pos hbc, hr, hbc]⟩
    · exact ⟨dedupSorted (c :: t'), by rw [dedupSorted, if_neg hbc]⟩

theorem dedupSorted_chain : ∀ (l : List ℚ),
    l.Chain' (· ≤ ·) → (dedupSorted l).Chain' (· < ·)
  | [], _ => List.chain'_nil
  | [a], _ => List.chain'_singleton a
  | a :: b :: t, h => by
    rcases List.chain'_cons.mp h with ⟨hab, htail⟩
    rw [dedupSorted]
    by_cases heq : a = b
    · rw [if_pos heq]
      exact dedupSorted_chain (b :: t) htail
    · rw [if_neg heq]
      obtain ⟨r, hr⟩ := dedupSorted_head b t
      rw [hr]
      refine List.chain'_cons.mpr ⟨lt_of_le_of_ne hab heq, ?_⟩
      rw [← hr]
      exact dedupSorted_chain (b :: t) htail

theorem groupMean_map_fst (pairs : List (ℚ × ℚ)) :
    (groupMean pairs).map Prod.fst = dedupSorted (pairs.map Prod.fst) := by
  unfold groupMean
  rw [List.map_map]
  exact List.map_id' _

theorem collapsedTimeCurve_chain (depths vals : List ℚ) (f : ℚ → ℚ) :
    (collapsedTimeCurve depths vals f).Chain' (fun a b => a.1 < b.1) := by
  have hsorted : List.Sorted (fun a b : ℚ × ℚ => a.1 ≤ b.1)
      (List.insertionSort (fun a b => a.1 ≤ b.1) ((depths.map f).zip vals)) :=
    List.sorted_insertionSort _ _
  have hkeys : ((List.insertionSort (fun a b => a.1 ≤ b.1)
      ((depths.map f).zip vals)).map Prod.fst).Chain' (· ≤ ·) := by
    refine List.Pairwise.chain' ?_
    rw [List.pairwise_map]
    exact hsorted
  have hchain := dedupSorted_chain _ hkeys
  unfold collapsedTimeCurve groupMean
  rw [List.chain'_map]
  exact hchain

theorem collapsedTimeCurve_keys (depths vals : List ℚ) (f : ℚ → ℚ)
    (hlen : depths.length = vals.length) (k : ℚ)
    (hk : k ∈ (collapsedTimeCurve depths vals f).map Prod.fst) :
    ∃ d ∈ depths, f d = k := by
  rw [collapsedTimeCurve, groupMean_map_fst, dedupSorted_mem] at hk
  have hperm : (List.insertionSort (fun a b : ℚ × ℚ => a.1 ≤ b.1)
      ((depths.map f).zip vals)).Perm ((depths.map f).zip vals) :=
    List.perm_insertionSort _ _
  have hk2 : k ∈ ((depths.map f).zip vals).map Prod.fst :=
    (hperm.map Prod.fst).mem_iff.mp hk
  rw [List.map_fst_zip _ _ (by simp [hlen])] at hk2
  rcases List.mem_map.mp hk2 with ⟨d, hd, rfl⟩
  exact ⟨d, hd, rfl⟩

theorem collapsedTimeCurve_ne_nil (depths vals : List ℚ) (f : ℚ → ℚ)
    (hlen : depths.length = vals.length) (hne : depths ≠ []) :
    collapsedTimeCurve depths vals f ≠ [] := by
  intro hempty
  have hfst := congrArg (List.map Prod.fst) hempty
  rw [collapsedTimeCurve, groupMean_map_fst] at hfst
  rcases hd : depths with _ | ⟨d0, drest⟩
  · exact hne hd
  · have hzlen : 0 < ((depths.map f).zip vals).length := by
      rw [List.length_zip, List.length_map, ← hlen, min_self, hd]
      simp
    rcases hz : (List.insertionSort (fun a b : ℚ × ℚ => a.1 ≤ b.1)
        ((depths.map f).zip vals)) with _ | ⟨p0, prest⟩
    · have := (List.perm_insertionSort
        (fun a b : ℚ × ℚ => a.1 ≤ b.1) ((depths.map f).zip vals)).length_eq
      rw [hz] at this
      simp only [List.length_nil] at this
      omega
    · rw [hz] at hfst
      simp only [List.map_cons, List.map_nil] at hfst
      obtain ⟨r, hr⟩ := dedupSorted_head p0.1 (prest.map Prod.fst)
      rw [hr] at hfst
      exact List.cons_ne_nil _ _ hfst

theorem interpSeg_right (p q : ℚ × ℚ) (h : p.1 ≠ q.1) :
    interpSeg p q q.1 = q.2 := by
  unfold interpSeg
  have hne : q.1 - p.1 ≠ 0 := sub_ne_zero.mpr (Ne.symm h)
  field_simp

theorem chain_head_le_last : ∀ (x : ℚ × ℚ) (l : List (ℚ × ℚ)),
    (x :: l).Chain' (fun a b => a.1 < b.1) →
    x.1 ≤ (((x :: l).getLast?).getD (0, 0)).1
  | _, [], _ => by simp
  | x, y :: l', h => by
    have h1 : x.1 < y.1 := (List.chain'_cons.mp h).1
    have h2 := chain_head_le_last y l' (List.chain'_cons.mp h).2
    rw [List.getLast?_cons_cons]
    linarith

theorem chain_head_le_of_mem (x : ℚ × ℚ) (l : List (ℚ × ℚ))
    (h : (x :: l).Chain' (fun a b => a.1 < b.1)) :
    ∀ d ∈ x :: l, x.1 ≤ d.1 := by
  intro d hd
  have hp := List.chain'_iff_pairwise.mp h
  rcases List.mem_cons.mp hd with rfl | hmem
  · exact le_refl _
  · exact le_of_lt ((List.pairwise_cons.mp hp).1 d hmem)

theorem npInterp_knot : ∀ (data : List (ℚ × ℚ)),
    data.Chain' (fun a b => a.1 < b.1) → ∀ k v : ℚ, (k, v) ∈ data →
    npInterp data k = v
  | [], _, _, _, h => absurd h (List.not_mem_nil _)
  | [p], _, k, v, h => by
    rw [List.mem_singleton] at h
    rw [← h]
    simp [npInterp]
  | p :: q :: rest, hch, k, v, h => by
    rcases List.mem_cons.mp h with heq | hmem
    · rw [← heq]
      simp [npInterp]
    · have hpk : p.1 < k := by
        have hp := List.chain'_iff_pairwise.mp hch
        have := (List.pairwise_cons.mp hp).1 (k, v) hmem
        simpa using this
      have htail : (q :: rest).Chain' (fun a b => a.1 < b.1) :=
        (List.chain'_cons.mp hch).2
      rcases List.mem_cons.mp hmem with heq' | hmem'
      · rw [← heq']
        simp only [npInterp, if_neg (not_le.mpr hpk)]
        rw [if_pos (le_refl k)]
        exact interpSeg_right p (k, v) (ne_of_lt hpk)
      · have hqk : q.1 < k := by
          have hp := List.chain'_iff_pairwise.mp htail
          have := (List.pairwise_cons.mp hp).1 (k, v) hmem'
          simpa using this
        simp only [npInterp, if_neg (not_le.mpr hpk), if_neg (not_le.mpr hqk)]
        exact npInterp_knot (q :: rest) htail k v hmem

theorem npInterp_ge_last : ∀ (data : List (ℚ × ℚ)),
    data.Chain' (fun a b => a.1 < b.1) → ∀ t : ℚ,
    ((data.getLast?).getD (0, 0)).1 ≤ t → data ≠ [] →
    npInterp data t = ((data.getLast?).getD (0, 0)).2
  | [], _, _, _, hne => absurd rfl hne
  | [p], _, t, _, _ => by simp [npInterp]
  | p :: q :: rest, hch, t, hle, _ => by
    have h1 : p.1 < q.1 := (List.chain'_cons.mp hch).1
    have htail : (q :: rest).Chain' (fun a b => a.1 < b.1) :=
      (List.chain'_cons.mp hch).2
    have hql : q.1 ≤ (((q :: rest).getLast?).getD (0, 0)).1 :=
      chain_head_le_last q rest htail
    rw [List.getLast?_cons_cons] at hle ⊢
    have hpt : ¬ t ≤ p.1 := by linarith
    by_cases hqt : t ≤ q.1
    · cases rest with
      | nil =>
        have hq : q.1 ≤ t := by simpa using hle
        have heq : t = q.1 := le_antisymm hqt hq
        simp only [npInterp]
        rw [if_neg hpt, if_pos hqt, heq]
        simpa using interpSeg_right p q (ne_of_lt h1)
      | cons r rest' =>
        have h2 : q.1 < r.1 := (List.chain'_cons.mp htail).1
        have hrl : r.1 ≤ (((r :: rest').getLast?).getD (0, 0)).1 :=
          chain_head_le_last r rest' (List.chain'_cons.mp htail).2
        rw [List.getLast?_cons_cons] at hle
        linarith
    · simp only [npInterp, if_neg hpt, if_neg hqt]
      exact npInterp_ge_last (q :: rest) htail t hle (List.cons_ne_nil _ _)

theorem interpolatedAt_ge_last (data : List (ℚ × ℚ))
    (hch : data.Chain' (fun a b => a.1 < b.1)) (hne : data ≠ []) (t : ℚ)
    (hle : ((data.getLast?).getD (0, 0)).1 ≤ t) :
    interpolatedAt data t = some (((data.getLast?).getD (0, 0)).2) := by
  have hnp : npInterp data t = ((data.getLast?).getD (0, 0)).2 :=
    npInterp_ge_last data hch t hle hne
  unfold interpolatedAt
  cases hfind : data.find? (fun d => decide (d.1 = t)) with
  | some d =>
    have hmem : d ∈ data := List.mem_of_find?_eq_some hfind
    have hdt : d.1 = t := by
      have := List.find?_some hfind
      simpa using this
    have h1 : npInterp data d.1 = d.2 :=
      npInterp_knot data hch d.1 d.2 (by simpa using hmem)
    rw [hdt] at h1
    show some d.2 = some ((data.getLast?.getD (0, 0)).2)
    rw [← hnp, ← h1]
  | none =>
    cases data with
    | nil => exact absurd rfl hne
    | cons p rest =>
      have hple : p.1 ≤ (((p :: rest).getLast?).getD (0, 0)).1 :=
        chain_head_le_last p rest hch
      have hnlt : ¬ t < p.1 := by
        simp only [not_lt]
        linarith
      show (if t < p.1 then none else some (npInterp (p :: rest) t)) =
        some (((p :: rest).getLast?.getD (0, 0)).2)
      rw [if_neg hnlt, hnp]

theorem interpolatedAt_lt_head (data : List (ℚ × ℚ))
    (hch : data.Chain' (fun a b => a.1 < b.1)) (p : ℚ × ℚ)
    (rest : List (ℚ × ℚ)) (hdata : data = p :: rest) (t : ℚ) (ht : t < p.1) :
    interpolatedAt data t = none := by
  subst hdata
  have hfind : (p :: rest).find? (fun d => decide (d.1 = t)) = none := by
    rw [List.find?_eq_none]
    intro d hd
    have hge := chain_head_le_of_mem p rest hch d hd
    simp only [decide_eq_true_eq]
    intro hdt
    rw [hdt] at hge
    linarith
  unfold interpolatedAt
  rw [hfind]
  show (if t < p.1 then none else some (npInterp (p :: rest) t)) = none
  rw [if_pos ht]

/-- Counterexample to C1 as stated: depth curve [0, 10] with values [0, 100]
under the identity depth-to-time map, resampled onto the single target time
20, which lies above the whole converted time range [0, 10].  The claim says
the output there is left undefined; the code forward-fills the last value 100
(pandas interpolation fills positions after the last valid knot). -/
theorem resample_above_range_counterexample :
    resample_log_to_time_domain [0, 10] [0, 100] (fun d => d) [20] =
      [some 100] ∧
    (∀ d ∈ ([0, 10] : List ℚ), d < 20) ∧
    ([some (100 : ℚ)] : List (Option ℚ)) ≠ [none] := by
  refine ⟨?_, by norm_num, by simp⟩
  norm_num [resample_log_to_time_domain, collapsedTimeCurve, groupMean,
    dedupSorted, listMean, List.insertionSort, List.orderedInsert,
    List.filter_cons, interpolatedAt, npInterp, List.find?]

/-- C1 amended: for every non-empty depth curve, the resampled output
evaluates the interpolated union at each target time; target times below the
minimum of the converted (duplicate-collapsed) time axis are left undefined,
while target times at or above its maximum receive the last collapsed value
(forward fill); interior times are linearly interpolated (no other
extrapolation). -/
theorem resample_out_of_range_forward_fill (depths vals : List ℚ) (f : ℚ → ℚ)
    (target : List ℚ) (hlen : depths.length = vals.length) (hne : depths ≠ []) :
    resample_log_to_time_domain depths vals f target =
      target.map (fun t => interpolatedAt (collapsedTimeCurve depths vals f) t) ∧
    (∀ t : ℚ, (∀ d ∈ depths, t < f d) →
      interpolatedAt (collapsedTimeCurve depths vals f) t = none) ∧
    (∀ t : ℚ, (∀ d ∈ depths, f d ≤ t) →
      interpolatedAt (collapsedTimeCurve depths vals f) t =
        some (((collapsedTimeCurve depths vals f).getLast?.getD (0, 0)).2)) := by
  have hcne : collapsedTimeCurve depths vals f ≠ [] :=
    collapsedTimeCurve_ne_nil depths vals f hlen hne
  have hch := collapsedTimeCurve_chain depths vals f
  refine ⟨?_, ?_, ?_⟩
  · have hnotE : ¬ depths.isEmpty := by
      rw [List.isEmpty_iff]
      exact hne
    simp [resample_log_to_time_domain, hnotE]
  · intro t hbelow
    rcases hc : collapsedTimeCurve depths vals f with _ | ⟨p, rest⟩
    · exact absurd hc hcne
    · rw [hc] at hch
      refine interpolatedAt_lt_head _ hch p rest rfl t ?_
      have hp1 : p.1 ∈ (collapsedTimeCurve depths vals f).map Prod.fst := by
        rw [hc]
        exact List.mem_map_of_mem _ (List.mem_cons_self _ _)
      rcases collapsedTimeCurve_keys depths vals f hlen p.1 hp1 with ⟨d, hd, hfd⟩
      rw [← hfd]
      exact hbelow d hd
  · intro t habove
    refine interpolatedAt_ge_last _ hch hcne t ?_
    have hsome := List.getLast?_eq_getLast _ hcne
    have hmem := List.getLast_mem hcne
    have hkey : ((collapsedTimeCurve depths vals f).getLast hcne).1 ∈
        (collapsedTimeCurve depths vals f).map Prod.fst :=
      List.mem_map_of_mem _ hmem
    rcases collapsedTimeCurve_keys depths vals f hlen _ hkey with ⟨d, hd, hfd⟩
    rw [hsome]
    simp only [Option.getD_some]
    rw [← hfd]
    exact habove d hd

/-- Witness for C1 amended over the depth curve [0, 10] with values [0, 100],
the identity conversion and target time 20. -/
theorem resample_out_of_range_forward_fill_witness :
    resample_log_to_time_domain [0, 10] [0, 100] (fun d => d) [20] =
      ([20] : List ℚ).map (fun t =>
        interpolatedAt (collapsedTimeCurve [0, 10] [0, 100] (fun d => d)) t) ∧
    (∀ t : ℚ, (∀ d ∈ ([0, 10] : List ℚ), t < d) →
      interpolatedAt (collapsedTimeCurve [0, 10] [0, 100] (fun d => d)) t =
        none) ∧
    (∀ t : ℚ, (∀ d ∈ ([0, 10] : List ℚ), d ≤ t) →
      interpolatedAt (collapsedTimeCurve [0, 10] [0, 100] (fun d => d)) t =
        some (((collapsedTimeCurve [0, 10] [0, 100]
          (fun d => d)).getLast?.getD (0, 0)).2)) :=
  resample_out_of_range_forward_fill [0, 10] [0, 100] (fun d => d) [20]
    (by decide) (by decide)

theorem interpSeg_left (p q : ℚ × ℚ) : interpSeg p q p.1 = p.2 := by
  unfold interpSeg
  rw [sub_self, zero_mul, zero_div, add_zero]

theorem interpSeg_roundtrip (p q : ℚ × ℚ) (hx : p.1 ≠ q.1) (hy : p.2 ≠ q.2)
    (d : ℚ) :
    interpSeg (p.2, p.1) (q.2, q.1) (interpSeg p q d) = d := by
  unfold interpSeg
  have h1 : q.1 - p.1 ≠ 0 := sub_ne_zero.mpr (Ne.symm hx)
  have h2 : q.2 - p.2 ≠ 0 := sub_ne_zero.mpr (Ne.symm hy)
  field_simp
  ring

theorem interpSeg_le_of_le (p q : ℚ × ℚ) (h1 : p.1 < q.1) (h2 : p.2 ≤ q.2)
    {a b : ℚ} (hab : a ≤ b) : interpSeg p q a ≤ interpSeg p q b := by
  unfold interpSeg
  have hx : (0 : ℚ) < q.1 - p.1 := by linarith
  have hnum : (a - p.1) * (q.2 - p.2) ≤ (b - p.1) * (q.2 - p.2) :=
    mul_le_mul_of_nonneg_right (by linarith) (by linarith)
  have := (div_le_div_iff_of_pos_right hx).mpr hnum
  linarith

theorem interpSeg_lt_of_lt (p q : ℚ × ℚ) (h1 : p.1 < q.1) (h2 : p.2 < q.2)
    {a b : ℚ} (hab : a < b) : interpSeg p q a < interpSeg p q b := by
  unfold interpSeg
  have hx : (0 : ℚ) < q.1 - p.1 := by linarith
  have hnum : (a - p.1) * (q.2 - p.2) < (b - p.1) * (q.2 - p.2) :=
    mul_lt_mul_of_pos_right (by linarith) (by linarith)
  have := (div_lt_div_iff_of_pos_right hx).mpr hnum
  linarith

theorem scipyInterp_gt_head : ∀ (p q : ℚ × ℚ) (rest : List (ℚ × ℚ)),
    (p :: q :: rest).Chain' (fun a b => a.1 < b.1) →
    (p :: q :: rest).Chain' (fun a b => a.2 < b.2) →
    ∀ d : ℚ, p.1 < d → p.2 < scipyInterp (p :: q :: rest) d
  | p, q, [], hx, hy, d, hd => by
    have h1 : p.1 < q.1 := (List.chain'_cons.mp hx).1
    have h2 : p.2 < q.2 := (List.chain'_cons.mp hy).1
    have hlt := interpSeg_lt_of_lt p q h1 h2 hd
    rw [interpSeg_left] at hlt
    simpa [scipyInterp] using hlt
  | p, q, r :: rest', hx, hy, d, hd => by
    have h1 : p.1 < q.1 := (List.chain'_cons.mp hx).1
    have h2 : p.2 < q.2 := (List.chain'_cons.mp hy).1
    by_cases hq : d ≤ q.1
    · have hlt := interpSeg_lt_of_lt p q h1 h2 hd
      rw [interpSeg_left] at hlt
      simpa [scipyInterp, if_pos hq] using hlt
    · have hrec := scipyInterp_gt_head q r rest' (List.chain'_cons.mp hx).2
        (List.chain'_cons.mp hy).2 d (not_le.mp hq)
      have : p.2 < scipyInterp (q :: r :: rest') d := lt_trans h2 hrec
      simpa [scipyInterp, if_neg hq] using this

theorem scipyInterp_mono : ∀ (p q : ℚ × ℚ) (rest : List (ℚ × ℚ)),
    (p :: q :: rest).Chain' (fun a b => a.1 < b.1) →
    (p :: q :: rest).Chain' (fun a b => a.2 < b.2) →
    ∀ a b : ℚ, a ≤ b →
    scipyInterp (p :: q :: rest) a ≤ scipyInterp (p :: q :: rest) b
  | p, q, [], hx, hy, a, b, hab => by
    have h1 : p.1 < q.1 := (List.chain'_cons.mp hx).1
    have h2 : p.2 < q.2 := (List.chain'_cons.mp hy).1
    simpa [scipyInterp] using interpSeg_le_of_le p q h1 (le_of_lt h2) hab
  | p, q, r :: rest', hx, hy, a, b, hab => by
    have h1 : p.1 < q.1 := (List.chain'_cons.mp hx).1
    have h2 : p.2 < q.2 := (List.chain'_cons.mp hy).1
    by_cases hbq : b ≤ q.1
    · have haq : a ≤ q.1 := le_trans hab hbq
      simpa [scipyInterp, if_pos hbq, if_pos haq] using
        interpSeg_le_of_le p q h1 (le_of_lt h2) hab
    · by_cases haq : a ≤ q.1
      · have hseg : interpSeg p q a ≤ q.2 := by
          have := interpSeg_le_of_le p q h1 (le_of_lt h2) haq
          rwa [interpSeg_right p q (ne_of_lt h1)] at this
        have hgt : q.2 < scipyInterp (q :: r :: rest') b :=
          scipyInterp_gt_head q r rest' (List.chain'_cons.mp hx).2
            (List.chain'_cons.mp hy).2 b (not_le.mp hbq)
        simp only [scipyInterp, if_pos haq, if_neg hbq]
        linarith
      · simp only [scipyInterp, if_neg haq, if_neg hbq]
        exact scipyInterp_mono q r rest' (List.chain'_cons.mp hx).2
          (List.chain'_cons.mp hy).2 a b hab

theorem scipyInterp_roundtrip : ∀ (p q : ℚ × ℚ) (rest : List (ℚ × ℚ)),
    (p :: q :: rest).Chain' (fun a b => a.1 < b.1) →
    (p :: q :: rest).Chain' (fun a b => a.2 < b.2) →
    ∀ d : ℚ, p.1 ≤ d → d ≤ (((p :: q :: rest).getLast?).getD (0, 0)).1 →
    scipyInterp ((p :: q :: rest).map (fun s => (s.2, s.1)))
      (scipyInterp (p :: q :: rest) d) = d
  | p, q, [], hx, hy, d, _, _ => by
    have h1 : p.1 < q.1 := (List.chain'_cons.mp hx).1
    have h2 : p.2 < q.2 := (List.chain'_cons.mp hy).1
    simpa [scipyInterp] using
      interpSeg_roundtrip p q (ne_of_lt h1) (ne_of_lt h2) d
  | p, q, r :: rest', hx, hy, d, hlo, hhi => by
    have h1 : p.1 < q.1 := (List.chain'_cons.mp hx).1
    have h2 : p.2 < q.2 := (List.chain'_cons.mp hy).1
    by_cases hq : d ≤ q.1
    · have hseg : interpSeg p q d ≤ q.2 := by
        have := interpSeg_le_of_le p q h1 (le_of_lt h2) hq
        rwa [interpSeg_right p q (ne_of_lt h1)] at this
      simp only [scipyInterp, List.map_cons, if_pos hq, if_pos hseg]
      exact interpSeg_roundtrip p q (ne_of_lt h1) (ne_of_lt h2) d
    · have hd : q.1 < d := not_le.mp hq
      have hgt : q.2 < scipyInterp (q :: r :: rest') d :=
        scipyInterp_gt_head q r rest' (List.chain'_cons.mp hx).2
          (List.chain'_cons.mp hy).2 d hd
      have hhi' : d ≤ (((q :: r :: rest').getLast?).getD (0, 0)).1 := by
        rwa [List.getLast?_cons_cons] at hhi
      simp only [scipyInterp, List.map_cons, if_neg hq, if_neg (not_le.mpr hgt)]
      exact scipyInterp_roundtrip q r rest' (List.chain'_cons.mp hx).2
        (List.chain'_cons.mp hy).2 d (le_of_lt hd) hhi'

theorem dropDupBy_eq_self (key : ℚ × ℚ → ℚ) : ∀ (l : List (ℚ × ℚ)),
    l.Pairwise (fun a b => key a ≠ key b) → dropDupBy key l = l
  | [], _ => rfl
  | p :: rest, h => by
    rcases List.pairwise_cons.mp h with ⟨hp, hrest⟩
    rw [dropDupBy, dropDupBy_eq_self key rest hrest]
    rw [List.filter_eq_self.mpr]
    intro r hr
    simp only [Bool.not_eq_eq_eq_not, Bool.not_true, beq_eq_false_iff_ne]
    exact fun heq => hp r hr heq.symm

theorem insertionSort_by_time_eq_self : ∀ (l : List (ℚ × ℚ)),
    l.Chain' (fun a b => a.2 ≤ b.2) →
    List.insertionSort (fun a b => a.2 ≤ b.2) l = l
  | [], _ => rfl
  | [_], _ => rfl
  | a :: b :: t, h => by
    have hab : a.2 ≤ b.2 := (List.chain'_cons.mp h).1
    show List.orderedInsert _ a (List.insertionSort _ (b :: t)) = a :: b :: t
    rw [insertionSort_by_time_eq_self (b :: t) (List.chain'_cons.mp h).2]
    rw [List.orderedInsert, if_pos hab]

/-- Counterexample to C8 as stated: the checkshot [(0,0), (1,0), (2,10)] has
3 unique depths and 2 unique times, and depth 1 lies inside the sampled depth
range [0, 2], yet the round trip returns 0: depth_to_time maps 1 to time 0,
and time_to_depth (built from the time-de-duplicated rows (0,0) and (2,10))
maps time 0 back to depth 0, an error of a full depth unit, far outside any
floating tolerance. -/
theorem interpolator_roundtrip_counterexample :
    (create_depth_time_interpolators [(0, 0), (1, 0), (2, 10)]).toOption.map
        (fun fg => fg.2 (fg.1 1)) = some 0 ∧
    (dropDupBy Prod.fst [(0, 0), (1, 0), (2, 10)]).length = 3 ∧
    (dropDupBy Prod.snd [(0, 0), (1, 0), (2, 10)]).length = 2 ∧
    (0 : ℚ) ≠ 1 := by
  refine ⟨?_, ?_, ?_, by norm_num⟩
  · norm_num [create_depth_time_interpolators, dropDupBy, List.filter_cons,
      List.insertionSort, List.orderedInsert, scipyInterp, interpSeg,
      Except.toOption]
  · norm_num [dropDupBy, List.filter_cons]
  · norm_num [dropDupBy, List.filter_cons]

/-- C8 amended: for every checkshot whose depths and times are both strictly
increasing (so that de-duplication keeps every row and the depth order is the
time order), with at least 2 rows, create_depth_time_interpolators succeeds
and the pair satisfies: time_to_depth (depth_to_time d) = d exactly for every
depth d within the sampled depth range, and both directions are monotone
(also through their extrapolation). -/
theorem interpolator_roundtrip_monotone (checkshot : List (ℚ × ℚ))
    (hd : checkshot.Chain' (fun a b => a.1 < b.1))
    (ht : checkshot.Chain' (fun a b => a.2 < b.2))
    (h2 : 2 ≤ checkshot.length) :
    ∃ fg, create_depth_time_interpolators checkshot = .ok fg ∧
      (∀ d : ℚ, (checkshot.headD (0, 0)).1 ≤ d →
        d ≤ ((checkshot.getLast?).getD (0, 0)).1 → fg.2 (fg.1 d) = d) ∧
      (∀ a b : ℚ, a ≤ b → fg.1 a ≤ fg.1 b) ∧
      (∀ a b : ℚ, a ≤ b → fg.2 a ≤ fg.2 b) := by
  have hdup_d : dropDupBy Prod.fst checkshot = checkshot := by
    refine dropDupBy_eq_self _ _ ?_
    exact (List.chain'_iff_pairwise.mp hd).imp (fun hab => ne_of_lt hab)
  have hdup_t : dropDupBy Prod.snd checkshot = checkshot := by
    refine dropDupBy_eq_self _ _ ?_
    exact (List.chain'_iff_pairwise.mp ht).imp (fun hab => ne_of_lt hab)
  have hsort : List.insertionSort (fun a b => a.2 ≤ b.2) checkshot = checkshot :=
    insertionSort_by_time_eq_self checkshot (ht.imp (fun _ _ h => le_of_lt h))
  have hn2 : ¬ checkshot.length < 2 := by omega
  have hcreate : create_depth_time_interpolators checkshot =
      .ok (fun d => scipyInterp checkshot d,
           fun t => scipyInterp (checkshot.map (fun p => (p.2, p.1))) t) := by
    unfold create_depth_time_interpolators
    rw [if_neg hn2]
    simp only [hdup_d, hdup_t, hn2, if_false, hsort]
  rcases checkshot with _ | ⟨p, tail⟩
  · simp at h2
  rcases tail with _ | ⟨q, rest⟩
  · simp at h2
  have hxm : ((p :: q :: rest).map (fun s : ℚ × ℚ => (s.2, s.1))).Chain'
      (fun a b => a.1 < b.1) := by
    rw [List.chain'_map]
    exact ht
  have hym : ((p :: q :: rest).map (fun s : ℚ × ℚ => (s.2, s.1))).Chain'
      (fun a b => a.2 < b.2) := by
    rw [List.chain'_map]
    exact hd
  refine ⟨_, hcreate, ?_, ?_, ?_⟩
  · intro d hlo hhi
    exact scipyInterp_roundtrip p q rest hd ht d hlo hhi
  · intro a b hab
    exact scipyInterp_mono p q rest hd ht a b hab
  · intro a b hab
    rcases hm : (p :: q :: rest).map (fun s : ℚ × ℚ => (s.2, s.1)) with
      _ | ⟨p', tail'⟩
    · simp at hm
    rcases tail' with _ | ⟨q', rest'⟩
    · have := congrArg List.length hm
      simp at this
    rw [hm] at hxm hym
    show scipyInterp (p' :: q' :: rest') a ≤ scipyInterp (p' :: q' :: rest') b
    exact scipyInterp_mono p' q' rest' hxm hym a b hab

/-- Witness for C8 amended on the strictly monotone checkshot
[(0, 0), (10, 100)]. -/
theorem interpolator_roundtrip_monotone_witness :
    ∃ fg, create_depth_time_interpolators [(0, 0), (10, 100)] = .ok fg ∧
      (∀ d : ℚ, (([(0, 0), (10, 100)] : List (ℚ × ℚ)).headD (0, 0)).1 ≤ d →
        d ≤ ((([(0, 0), (10, 100)] : List (ℚ × ℚ)).getLast?).getD (0, 0)).1 →
        fg.2 (fg.1 d) = d) ∧
      (∀ a b : ℚ, a ≤ b → fg.1 a ≤ fg.1 b) ∧
      (∀ a b : ℚ, a ≤ b → fg.2 a ≤ fg.2 b) :=
  interpolator_roundtrip_monotone [(0, 0), (10, 100)]
    (by norm_num [List.chain'_cons]) (by norm_num [List.chain'_cons])
    (by decide)

end RockPhysics
